import Mathlib

/-!
Verification of the coverage aggregation and diff engine of `mutility/coverpkg`
(files `internal/coverage/cov.go` and `internal/coverage/report.go`).

Modelling conventions (shallow embedding):
* Go strings (ASCII paths) are modelled as `List Char` (`GoStr`).
* Go `int` is modelled as `Int` (`strconv.Atoi` accepts signed values, so
  counts can be negative in principle; overflow of 64-bit values is not
  modelled, no claim depends on it).
* Go maps built by `m[k] += v` loops are modelled as association lists built
  by the same loop (`bump` updates the entry in place or appends a fresh one,
  starting from the zero value, exactly like a Go map read-modify-write).
  Map equality is stated extensionally via `alookup`.
* A Go runtime panic (out-of-range slice `s[:n]` with `n < 0`) is modelled by
  `Option`: `none` means the operation panics.
* Go float64 percentages are modelled in `ℚ`; the IEEE value `NaN` produced
  by `0/0` is modelled by `Option ℚ`: `none` means the division had a zero
  denominator (non-finite result), `some q` the exact finite quotient.
-/

set_option autoImplicit false

namespace Coverpkg

/-- Go string (byte string restricted to characters), as used for paths. -/
abbrev GoStr := List Char

/-- Abbreviation turning a Lean string literal into a `GoStr`. -/
def gs (s : String) : GoStr := s.toList

/-- A (count, covered) pair being aggregated; fields are Go `int`s. -/
abbrev Pair := Int × Int

/-- Go `strings.LastIndexByte`: index of the last occurrence of `c` in `s`,
or `-1` when absent (Go returns an `int`). -/
def lastIndexByte (s : GoStr) (c : Char) : Int :=
  match s with
  | [] => -1
  | x :: t =>
    let r := lastIndexByte t c
    if r ≥ 0 then r + 1 else if x = c then 0 else -1

/-- Go slice `s[:n]` where `n` is a Go `int`: panics (`none`) unless
`0 ≤ n ≤ len(s)`. -/
def goSliceTo (s : GoStr) (n : Int) : Option GoStr :=
  if 0 ≤ n ∧ n ≤ s.length then some (s.take n.toNat) else none

/-- `nth` from cov.go: index of the `n`-th occurrence of `r` in `s`,
or `-1` when there are fewer than `n` occurrences. -/
def nth (s : GoStr) (r : Char) (n : Nat) : Int :=
  go s 0 0
where
  go : List Char → Nat → Nat → Int
    | [], _, _ => -1
    | x :: t, c, pos =>
      if x = r then
        if c + 1 = n then (pos : Int) else go t (c + 1) (pos + 1)
      else go t c (pos + 1)

/-- Go `strings.Split(path, "/")` (split at every separator char). -/
def goSplit (sep : Char) : List Char → List (List Char)
  | [] => [[]]
  | c :: t =>
    match goSplit sep t with
    | [] => [[]]
    | seg :: rest => if c = sep then [] :: seg :: rest else (c :: seg) :: rest

/-- Go `strings.Join(parts, "/")`. -/
def joinSlash : List (List Char) → List Char
  | [] => []
  | [a] => a
  | a :: t => a ++ '/' :: joinSlash t

/-- `pathpkg` from cov.go: everything before the last `/`; the whole path
(plus a diagnostic, not modelled) when there is no `/`. Total: the `n < 0`
case is guarded, so no slice can be out of range. -/
def pathpkg (path : GoStr) : GoStr :=
  let n := lastIndexByte path '/'
  if n < 0 then path else path.take n.toNat

/-- `pathpkg` with the Go slice modelled explicitly, to state that it never
panics (the guard makes `goSliceTo` always succeed). -/
def pathpkgP (path : GoStr) : Option GoStr :=
  let n := lastIndexByte path '/'
  if n < 0 then some path else goSliceTo path n

/-- `pathroot` from cov.go: the path truncated to at most its first 4
`/`-separated segments (`strings.Split`, `parts[:4]`, `strings.Join`). -/
def pathroot (path : GoStr) : GoStr :=
  joinSlash ((goSplit '/' path).take 4)

/-- `pathmod` from cov.go: `path[:nth(path, '/', 2)]`, i.e. everything
before the SECOND `/` — which keeps at most the first TWO `/`-separated
segments — or the whole path if there is no second `/`. -/
def pathmod (path : GoStr) : GoStr :=
  let n := nth path '/' 2
  if n < 0 then path else path.take n.toNat

/-- `pathmod` with the Go slice modelled explicitly (never panics: the
`n < 0` case is guarded and `nth` returns an in-range index otherwise). -/
def pathmodP (path : GoStr) : Option GoStr :=
  let n := nth path '/' 2
  if n < 0 then some path else goSliceTo path n

/-- The per-package module key computed inline by `ByModule` in cov.go:
`strings.Split`, `parts[:3]`, `strings.Join` — at most the first THREE
`/`-separated segments. -/
def byModuleKey (path : GoStr) : GoStr :=
  joinSlash ((goSplit '/' path).take 3)

/-- `stmt.file` from cov.go: `s.filepos[:strings.LastIndexByte(s.filepos, ':')]`.
The slice index is NOT guarded: a `filepos` without `:` panics (`none`). -/
def stmtFileP (filepos : GoStr) : Option GoStr :=
  goSliceTo filepos (lastIndexByte filepos ':')

/-- `stmt.pkg` from cov.go: slices `filepos` at the last `/` occurring before
the last `:`. Neither slice index is guarded: a `filepos` without `:`, or
without `/` before the `:`, panics (`none`). -/
def stmtPkgP (filepos : GoStr) : Option GoStr :=
  match goSliceTo filepos (lastIndexByte filepos ':') with
  | none => none
  | some pre => goSliceTo filepos (lastIndexByte pre '/')

/-! ## Aggregation (`ByFiles`, `ByPackage`, `ByRoot`, `ByModule`)

A rollup input is the sequence of `(path, count, covered)` callbacks an
`EachStatementer`/`EachFiler`/`EachPackager` produces, modelled as a list of
`(GoStr × Pair)` entries. The Go loop body `cc := m[k]; cc.Count += count;
cc.Covered += covered; m[k] = cc` is `bump`; each rollup is a fold of `bump`
over the entries, keyed by a derivation function that returns `none` when the
Go loop skips the entry (only `ByPackage` can skip). -/

/-- One Go-map read-modify-write `m[k] = m[k] + v`: update the (first, and
by construction only) entry with key `k`, or append `(k, v)` starting from
the zero value. -/
def bump : List (GoStr × Pair) → GoStr → Pair → List (GoStr × Pair)
  | [], k, v => [(k, v)]
  | (k', v') :: t, k, v =>
    if k' = k then (k', v' + v) :: t else (k', v') :: bump t k v

/-- A rollup loop: for each input entry derive a bucket key with `key`
(`none` = the loop body skips the entry) and `bump` its counts. -/
def build (key : GoStr → Option GoStr) (E : List (GoStr × Pair)) :
    List (GoStr × Pair) :=
  E.foldl (fun m e =>
    match key e.1 with
    | none => m
    | some k => bump m k e.2) []

/-- `ByFiles` from cov.go: buckets each enumerated statement by the path it
was reported under (the position part of the callback is ignored by the Go
code and therefore not modelled). -/
def ByFiles (E : List (GoStr × Pair)) : List (GoStr × Pair) :=
  build (fun p => some p) E

/-- The bucket key of `ByPackage` from cov.go: `path[:LastIndexByte(path, '/')]`,
with the entry SKIPPED (a diagnostic, then `return` from the callback) when
the path contains no `/`. -/
def byPackageKey (path : GoStr) : Option GoStr :=
  let n := lastIndexByte path '/'
  if n < 0 then none else some (path.take n.toNat)

/-- `ByPackage` from cov.go, over the entries enumerated by `EachFile`. -/
def ByPackage (E : List (GoStr × Pair)) : List (GoStr × Pair) :=
  build byPackageKey E

/-- `ByRoot` from cov.go, over the entries enumerated by `EachPackage`. -/
def ByRoot (E : List (GoStr × Pair)) : List (GoStr × Pair) :=
  build (fun p => some (pathroot p)) E

/-- `ByModule` from cov.go, over the entries enumerated by `EachPackage`. -/
def ByModule (E : List (GoStr × Pair)) : List (GoStr × Pair) :=
  build (fun p => some (byModuleKey p)) E

/-- Go map lookup (first matching entry; built maps have unique keys). -/
def alookup (p : GoStr) : List (GoStr × Pair) → Option Pair
  | [] => none
  | (k, v) :: t => if k = p then some v else alookup p t

/-- Sum of the `(Count, Covered)` values of a rollup output map. -/
def mapTotal (m : List (GoStr × Pair)) : Pair := (m.map Prod.snd).sum

/-- Sum of the `(count, covered)` values of a rollup input enumeration. -/
def entriesTotal (E : List (GoStr × Pair)) : Pair := (E.map Prod.snd).sum

/-- The values of the input entries that land in bucket `p` under `key`. -/
def hits (key : GoStr → Option GoStr) (p : GoStr) (E : List (GoStr × Pair)) :
    List Pair :=
  E.filterMap (fun e => if key e.1 = some p then some e.2 else none)

theorem bump_total (m : List (GoStr × Pair)) (k : GoStr) (v : Pair) :
    mapTotal (bump m k v) = mapTotal m + v := by
  induction m with
  | nil => simp [bump, mapTotal]
  | cons e t ih =>
    obtain ⟨k', v'⟩ := e
    by_cases h : k' = k
    · subst h
      have hb : bump ((k', v') :: t) k' v = (k', v' + v) :: t := by simp [bump]
      rw [hb]
      simp only [mapTotal, List.map_cons, List.sum_cons]
      abel
    · simp only [bump, if_neg h, mapTotal, List.map_cons, List.sum_cons] at ih ⊢
      rw [ih]
      abel

theorem alookup_bump_self (m : List (GoStr × Pair)) (k : GoStr) (v : Pair) :
    alookup k (bump m k v) = some ((alookup k m).getD 0 + v) := by
  induction m with
  | nil => simp [bump, alookup]
  | cons e t ih =>
    obtain ⟨k', v'⟩ := e
    by_cases h : k' = k
    · subst h
      simp [bump, alookup]
    · simp [bump, h, alookup, ih]

theorem alookup_bump_ne (m : List (GoStr × Pair)) (k p : GoStr) (v : Pair)
    (h : p ≠ k) : alookup p (bump m k v) = alookup p m := by
  induction m with
  | nil => simp [bump, alookup, if_neg (Ne.symm h)]
  | cons e t ih =>
    obtain ⟨k', v'⟩ := e
    by_cases hk : k' = k
    · subst hk
      simp [bump, alookup, if_neg (Ne.symm h)]
    · by_cases hp : k' = p <;> simp [bump, hk, alookup, hp, ih, h]

theorem hits_append (key : GoStr → Option GoStr) (p : GoStr)
    (E F : List (GoStr × Pair)) :
    hits key p (E ++ F) = hits key p E ++ hits key p F := by
  simp [hits]

theorem build_append_one (key : GoStr → Option GoStr)
    (E : List (GoStr × Pair)) (e : GoStr × Pair) :
    build key (E ++ [e]) =
      match key e.1 with
      | none => build key E
      | some k => bump (build key E) k e.2 := by
  simp [build, List.foldl_append]

/-- Lookup in a built map: present iff some input entry lands in the bucket,
and then the value is the sum of all entry values landing there. -/
theorem alookup_build (key : GoStr → Option GoStr) (p : GoStr)
    (E : List (GoStr × Pair)) :
    alookup p (build key E) =
      if hits key p E = [] then none else some (hits key p E).sum := by
  induction E using List.reverseRecOn with
  | nil => simp [build, alookup, hits]
  | append_singleton E e ih =>
    rw [build_append_one]
    rcases he : key e.1 with _ | k
    · have hh : hits key p (E ++ [e]) = hits key p E := by
        simp [hits_append, hits, he]
      rw [hh, ih]
    · by_cases hk : k = p
      · subst hk
        have hh : hits key k (E ++ [e]) = hits key k E ++ [e.2] := by
          simp [hits_append, hits, he]
        rw [alookup_bump_self, ih, hh]
        by_cases hemp : hits key k E = []
        · simp [hemp]
        · simp [hemp, List.sum_append]
      · have hh : hits key p (E ++ [e]) = hits key p E := by
          simp [hits_append, hits, he, hk]
        rw [alookup_bump_ne _ _ _ _ (Ne.symm hk), ih, hh]

/-- Total of a built map: the sum of all input entries that were not skipped. -/
theorem mapTotal_build (key : GoStr → Option GoStr)
    (E : List (GoStr × Pair)) :
    mapTotal (build key E) =
      entriesTotal (E.filter (fun e => (key e.1).isSome)) := by
  induction E using List.reverseRecOn with
  | nil => simp [build, mapTotal, entriesTotal]
  | append_singleton E e ih =>
    rw [build_append_one]
    rcases he : key e.1 with _ | k
    · simpa [List.filter_append, he, entriesTotal] using ih
    · rw [bump_total, ih]
      simp [List.filter_append, he, entriesTotal]

theorem lastIndexByte_lt_length (s : GoStr) (c : Char) :
    lastIndexByte s c < s.length := by
  induction s with
  | nil => simp [lastIndexByte]
  | cons x t ih =>
    simp only [lastIndexByte, List.length_cons]
    by_cases hr : lastIndexByte t c ≥ 0
    · rw [if_pos hr]; push_cast; omega
    · rw [if_neg hr]
      by_cases hx : x = c
      · simp [hx]
      · simp [hx]
        omega

theorem goSliceTo_isSome (s : GoStr) (n : Int) :
    (goSliceTo s n).isSome ↔ 0 ≤ n ∧ n ≤ s.length := by
  by_cases h : 0 ≤ n ∧ n ≤ s.length <;> simp [goSliceTo, h]

theorem nth_go_lt_length (r : Char) (n : Nat) (t : List Char) (c pos : Nat) :
    nth.go r n t c pos < (pos : Int) + t.length := by
  induction t generalizing c pos with
  | nil => simp [nth.go]; omega
  | cons x tl ih =>
    simp only [nth.go, List.length_cons]
    by_cases hx : x = r
    · rw [if_pos hx]
      by_cases hc : c + 1 = n
      · rw [if_pos hc]; push_cast; omega
      · rw [if_neg hc]
        have := ih (c + 1) (pos + 1)
        push_cast at this ⊢; omega
    · rw [if_neg hx]
      have := ih c (pos + 1)
      push_cast at this ⊢; omega

theorem nth_lt_length (s : GoStr) (r : Char) (n : Nat) :
    nth s r n < s.length := by
  have := nth_go_lt_length r n s 0 0
  simpa [nth] using this

/-! ## Claim C1 — conservation of totals -/

/-- C1, counterexample: the claim "each rollup operation (ByFiles, ByPackage,
ByRoot, ByModule) conserves the sums of Covered and Total" is false as stated:
`ByPackage` SKIPS (with only a debug diagnostic) every enumerated entry whose
path contains no `/`, so its counts are lost. A single-entry input whose path
is a bare file name rolls up to an empty package map with zero totals. -/
theorem c1_counterexample :
    mapTotal (ByPackage [(gs "file.go", ((3 : Int), (2 : Int)))]) = (0, 0) ∧
    entriesTotal [(gs "file.go", ((3 : Int), (2 : Int)))] = (3, 2) ∧
    ((0, 0) : Pair) ≠ ((3, 2) : Pair) := by
  decide

/-- C1, amended: `ByFiles`, `ByRoot` and `ByModule` conserve the sums of
count and covered for every input enumeration; `ByPackage` conserves them
provided every enumerated path contains a `/` (entries without one are
dropped by the Go code). -/
theorem c1_conservation_amended (E : List (GoStr × Pair)) :
    mapTotal (ByFiles E) = entriesTotal E ∧
    mapTotal (ByRoot E) = entriesTotal E ∧
    mapTotal (ByModule E) = entriesTotal E ∧
    ((∀ e ∈ E, 0 ≤ lastIndexByte e.1 '/') →
      mapTotal (ByPackage E) = entriesTotal E) := by
  refine ⟨?_, ?_, ?_, fun h => ?_⟩
  · rw [ByFiles, mapTotal_build]
    simp
  · rw [ByRoot, mapTotal_build]
    simp
  · rw [ByModule, mapTotal_build]
    simp
  · rw [ByPackage, mapTotal_build]
    have hf : E.filter (fun e => (byPackageKey e.1).isSome) = E := by
      apply List.filter_eq_self.mpr
      intro e he
      have := h e he
      simp [byPackageKey]
      omega
    rw [hf]

/-- C1 witness: the amended `ByPackage` conservation applied to a concrete
one-entry input whose path contains a `/`. -/
theorem c1_conservation_amended_witness :
    (∀ e ∈ [(gs "a/b.go", ((3 : Int), (2 : Int)))], 0 ≤ lastIndexByte e.1 '/') ∧
    mapTotal (ByPackage [(gs "a/b.go", ((3 : Int), (2 : Int)))]) =
      entriesTotal [(gs "a/b.go", ((3 : Int), (2 : Int)))] :=
  ⟨by decide, (c1_conservation_amended _).2.2.2 (by decide)⟩

/-! ## Claim C5 — module derivation -/

/-- C5: the spec says `mod(path)` is the package path truncated to at most
its first 3 `/`-delimited segments, for EVERY code path deriving a module
identifier. `ByModule` (split, `parts[:3]`, join) does keep 3 segments, but
`pathmod` — used by `stmt.mod`, `FileData.EachModule` and
`PathData.EachModule` — slices the path before its SECOND `/`, keeping only
2 segments, so the two module derivations in the code disagree with each
other (and `pathmod` disagrees with the spec, the tests and the README). -/
theorem c5_pathmod_keeps_two_segments :
    pathmod (gs "github.com/mutility/coverpkg/internal/coverage") =
      gs "github.com/mutility" ∧
    byModuleKey (gs "github.com/mutility/coverpkg/internal/coverage") =
      gs "github.com/mutility/coverpkg" ∧
    pathmod (gs "github.com/mutility/coverpkg/internal/coverage") ≠
      byModuleKey (gs "github.com/mutility/coverpkg/internal/coverage") := by
  decide

/-! ## Claim C6 — taxonomy totality -/

/-- C6, counterexample: the claim that every taxonomy derivation is total on
every path string is false: `stmt.file` and `stmt.pkg` slice the raw
statement key with the unguarded result of `LastIndexByte`, so a path with
no `:`, or with no `/` before its last `:`, makes the Go code slice with
index `-1` — an out-of-range panic (modelled as `none`). -/
theorem c6_counterexample :
    stmtFileP (gs "abc") = none ∧
    stmtPkgP (gs "abc") = none ∧
    stmtPkgP (gs "main.go:1.2,3.4") = none := by
  decide

/-- C6, amended: the standalone path-taxonomy functions `pathpkg`, `pathroot`
and `pathmod` are total (their `n < 0` cases are guarded, and
`pathroot` performs no slicing at all), but the statement-level derivations
succeed exactly when the statement key is well formed: `stmt.file` needs a
`:` and `stmt.pkg` additionally needs a `/` before the last `:`. -/
theorem c6_taxonomy_totality_amended (path : GoStr) :
    (pathpkgP path).isSome ∧
    (pathmodP path).isSome ∧
    ((stmtFileP path).isSome ↔ 0 ≤ lastIndexByte path ':') ∧
    ((stmtPkgP path).isSome ↔ 0 ≤ lastIndexByte path ':' ∧
      0 ≤ lastIndexByte (path.take (lastIndexByte path ':').toNat) '/') := by
  have hlt : ∀ (s : GoStr) (c : Char), lastIndexByte s c < s.length :=
    lastIndexByte_lt_length
  refine ⟨?_, ?_, ?_, ?_⟩
  · rw [pathpkgP]
    by_cases h : lastIndexByte path '/' < 0
    · simp [h]
    · have := hlt path '/'
      simp only [if_neg h, goSliceTo_isSome]
      omega
  · rw [pathmodP]
    by_cases h : nth path '/' 2 < 0
    · simp [h]
    · have := nth_lt_length path '/' 2
      simp only [if_neg h, goSliceTo_isSome]
      omega
  · rw [stmtFileP, goSliceTo_isSome]
    have := hlt path ':'
    omega
  · rw [stmtPkgP]
    rcases hf : goSliceTo path (lastIndexByte path ':') with _ | pre
    · have hn : ¬ (0 ≤ lastIndexByte path ':') := by
        have h2 := hlt path ':'
        intro hge
        have : (goSliceTo path (lastIndexByte path ':')).isSome := by
          rw [goSliceTo_isSome]; omega
        rw [hf] at this
        simp at this
      simp [hn]
    · have hge : 0 ≤ lastIndexByte path ':' := by
        by_contra hn
        have : (goSliceTo path (lastIndexByte path ':')).isSome := by
          rw [hf]; simp
        rw [goSliceTo_isSome] at this
        omega
      have hpre : pre = path.take (lastIndexByte path ':').toNat := by
        rw [goSliceTo] at hf
        split at hf
        · exact (Option.some_inj.mp hf).symm
        · simp at hf
      have hlen : (pre.length : Int) ≤ path.length := by
        rw [hpre]
        simp
      rw [goSliceTo_isSome, hpre]
      constructor
      · intro h
        refine ⟨hge, ?_⟩
        omega
      · intro h
        have h3 := hlt pre '/'
        rw [hpre] at h3
        refine ⟨by omega, ?_⟩
        have : (pre.length : Int) ≤ path.length := hlen
        rw [hpre] at this
        omega

/-! ## Claim C2 — rollup associativity -/

theorem hits_cons (f : GoStr → Option GoStr) (p : GoStr) (e : GoStr × Pair)
    (t : List (GoStr × Pair)) :
    hits f p (e :: t) =
      if f e.1 = some p then e.2 :: hits f p t else hits f p t := by
  by_cases h : f e.1 = some p <;> simp [hits, h]

theorem hits_bump_sum (f : GoStr → Option GoStr) (p k : GoStr) (v : Pair)
    (m : List (GoStr × Pair)) :
    (hits f p (bump m k v)).sum =
      (hits f p m).sum + (if f k = some p then v else 0) := by
  induction m with
  | nil =>
    by_cases h : f k = some p <;> simp [bump, hits, h]
  | cons e t ih =>
    obtain ⟨k', v'⟩ := e
    by_cases hk : k' = k
    · subst hk
      have hb : bump ((k', v') :: t) k' v = (k', v' + v) :: t := by simp [bump]
      rw [hb, hits_cons, hits_cons]
      by_cases hf : f k' = some p
      · simp [hf]
        abel
      · simp [hf]
    · simp only [bump, if_neg hk]
      rw [hits_cons, hits_cons]
      by_cases hf : f k' = some p
      · simp only [if_pos hf, List.sum_cons, ih]
        abel
      · simp only [if_neg hf, ih]

theorem hits_bump_eq_nil (f : GoStr → Option GoStr) (p k : GoStr) (v : Pair)
    (m : List (GoStr × Pair)) :
    (hits f p (bump m k v) = [] ↔ hits f p m = [] ∧ f k ≠ some p) := by
  induction m with
  | nil =>
    by_cases h : f k = some p <;> simp [bump, hits, h]
  | cons e t ih =>
    obtain ⟨k', v'⟩ := e
    by_cases hk : k' = k
    · subst hk
      have hb : bump ((k', v') :: t) k' v = (k', v' + v) :: t := by simp [bump]
      rw [hb, hits_cons, hits_cons]
      by_cases hf : f k' = some p <;> simp [hf]
    · simp only [bump, if_neg hk]
      rw [hits_cons, hits_cons]
      by_cases hf : f k' = some p <;> simp [hf, ih]

/-- The hits of a second-level rollup over a built map, compared with the
hits of the composed key over the raw entries: same emptiness. -/
theorem hits_build_eq_nil (f g : GoStr → Option GoStr) (p : GoStr)
    (E : List (GoStr × Pair)) :
    (hits f p (build g E) = [] ↔ hits (fun s => (g s).bind f) p E = []) := by
  induction E using List.reverseRecOn with
  | nil => simp [build, hits]
  | append_singleton E e ih =>
    rw [build_append_one]
    rcases he : g e.1 with _ | k
    · have h2 : hits (fun s => (g s).bind f) p (E ++ [e]) =
          hits (fun s => (g s).bind f) p E := by
        rw [hits_append]
        have h1 : hits (fun s => (g s).bind f) p [e] = [] := by
          simp [hits, he]
        rw [h1, List.append_nil]
      rw [h2]
      exact ih
    · rw [hits_bump_eq_nil]
      have h2 : hits (fun s => (g s).bind f) p (E ++ [e]) =
          hits (fun s => (g s).bind f) p E ++
            (if f k = some p then [e.2] else []) := by
        rw [hits_append]
        by_cases hf : f k = some p <;> simp [hits, he, hf]
      rw [h2]
      by_cases hf : f k = some p <;> simp [hf, ih]

/-- The hits of a second-level rollup over a built map, compared with the
hits of the composed key over the raw entries: same sum. -/
theorem hits_build_sum (f g : GoStr → Option GoStr) (p : GoStr)
    (E : List (GoStr × Pair)) :
    (hits f p (build g E)).sum = (hits (fun s => (g s).bind f) p E).sum := by
  induction E using List.reverseRecOn with
  | nil => simp [build, hits]
  | append_singleton E e ih =>
    rw [build_append_one]
    rcases he : g e.1 with _ | k
    · have h2 : hits (fun s => (g s).bind f) p (E ++ [e]) =
          hits (fun s => (g s).bind f) p E := by
        rw [hits_append]
        have h1 : hits (fun s => (g s).bind f) p [e] = [] := by
          simp [hits, he]
        rw [h1, List.append_nil]
      rw [h2]
      exact ih
    · rw [hits_bump_sum]
      have h2 : hits (fun s => (g s).bind f) p (E ++ [e]) =
          hits (fun s => (g s).bind f) p E ++
            (if f k = some p then [e.2] else []) := by
        rw [hits_append]
        by_cases hf : f k = some p <;> simp [hits, he, hf]
      rw [h2, List.sum_append, ih]
      by_cases hf : f k = some p <;> simp [hf]

/-- Composing two rollups equals a single rollup with the composed key
(extensionally, as Go maps). -/
theorem alookup_build_build (f g : GoStr → Option GoStr) (p : GoStr)
    (E : List (GoStr × Pair)) :
    alookup p (build f (build g E)) =
      alookup p (build (fun s => (g s).bind f) E) := by
  rw [alookup_build, alookup_build]
  by_cases h : hits (fun s => (g s).bind f) p E = []
  · rw [if_pos ((hits_build_eq_nil f g p E).mpr h), if_pos h]
  · rw [if_neg (fun hh => h ((hits_build_eq_nil f g p E).mp hh)), if_neg h,
      hits_build_sum]

/-- A parsed statement: the raw `path:pos` key and its statement count
(the `stmt` struct of cov.go). -/
structure GoStmt where
  filepos : GoStr
  count : Int
deriving DecidableEq

/-- `stmt.covered` from cov.go: the full count when covered, else 0. -/
def stmtCoveredVal (s : GoStmt) (cov : Bool) : Int := if cov then s.count else 0

/-- The `(path, count, covered)` callbacks of `StatementData.EachFile` (and,
path-wise identically, `EachStatement`): one per statement, keyed by
`stmt.file`. A statement whose malformed key would make `stmt.file` panic is
dropped here; the well-formedness hypotheses of the theorems below make the
enumeration exact. -/
def eachFileEntries (sd : List (GoStmt × Bool)) : List (GoStr × Pair) :=
  sd.filterMap (fun sb => (stmtFileP sb.1.filepos).map
    (fun f => (f, (sb.1.count, stmtCoveredVal sb.1 sb.2))))

/-- The callbacks of `StatementData.EachPackage`, keyed by `stmt.pkg`. -/
def eachPkgEntries (sd : List (GoStmt × Bool)) : List (GoStr × Pair) :=
  sd.filterMap (fun sb => (stmtPkgP sb.1.filepos).map
    (fun f => (f, (sb.1.count, stmtCoveredVal sb.1 sb.2))))

/-- `FileData.EachPackage` from cov.go: enumerate the file map, deriving each
path with `pathpkg`. -/
def fdEachPackage (m : List (GoStr × Pair)) : List (GoStr × Pair) :=
  m.map (fun e => (pathpkg e.1, e.2))

theorem build_map_fst (key : GoStr → Option GoStr) (g : GoStr → GoStr)
    (E : List (GoStr × Pair)) :
    build key (E.map (fun e => (g e.1, e.2))) =
      build (fun s => key (g s)) E := by
  simp [build, List.foldl_map]

/-- On a well-formed statement key, `stmt.pkg` equals `pathpkg` applied to
`stmt.file` (the position suffix contains no `/`, and both slice the same
original string). -/
theorem stmtPkgP_eq_pathpkg_stmtFileP (fp q : GoStr)
    (h : stmtPkgP fp = some q) :
    ∃ f, stmtFileP fp = some f ∧ pathpkg f = q := by
  rw [stmtPkgP] at h
  rcases hf : goSliceTo fp (lastIndexByte fp ':') with _ | pre
  · rw [hf] at h
    exact absurd h (by simp)
  · rw [hf] at h
    refine ⟨pre, hf, ?_⟩
    have hpre : pre = fp.take (lastIndexByte fp ':').toNat ∧
        0 ≤ lastIndexByte fp ':' := by
      simp only [goSliceTo] at hf
      split at hf
      · exact ⟨(Option.some_inj.mp hf).symm, by omega⟩
      · simp at hf
    have hq : q = fp.take (lastIndexByte pre '/').toNat ∧
        0 ≤ lastIndexByte pre '/' := by
      simp only [goSliceTo] at h
      split at h
      · exact ⟨(Option.some_inj.mp h).symm, by omega⟩
      · simp at h
    have hlt2 : lastIndexByte pre '/' < pre.length := lastIndexByte_lt_length _ _
    have hdef : pathpkg pre = if lastIndexByte pre '/' < 0 then pre
        else pre.take (lastIndexByte pre '/').toNat := rfl
    rw [hdef, if_neg (by omega)]
    rw [hq.1, hpre.1, List.take_take]
    congr 1
    have : (lastIndexByte pre '/').toNat < pre.length := by
      rcases hq with ⟨_, hge⟩
      omega
    rw [hpre.1, List.length_take] at this
    omega

/-- Under well-formedness, enumerating statements per package equals
enumerating them per file and deriving the package with `pathpkg`. -/
theorem eachPkgEntries_eq_fdEachPackage (sd : List (GoStmt × Bool))
    (h : ∀ sb ∈ sd, (stmtPkgP sb.1.filepos).isSome) :
    eachPkgEntries sd = fdEachPackage (eachFileEntries sd) := by
  induction sd with
  | nil => simp [eachPkgEntries, eachFileEntries, fdEachPackage]
  | cons sb t ih =>
    have hsb := h sb (by simp)
    rcases hq : stmtPkgP sb.1.filepos with _ | q
    · rw [hq] at hsb
      simp at hsb
    · obtain ⟨f, hfile, hpp⟩ := stmtPkgP_eq_pathpkg_stmtFileP _ _ hq
      have ht := ih (fun x hx => h x (by simp [hx]))
      have e1 : eachPkgEntries (sb :: t) =
          (q, (sb.1.count, stmtCoveredVal sb.1 sb.2)) :: eachPkgEntries t := by
        simp [eachPkgEntries, hq]
      have e2 : eachFileEntries (sb :: t) =
          (f, (sb.1.count, stmtCoveredVal sb.1 sb.2)) :: eachFileEntries t := by
        simp [eachFileEntries, hfile]
      have e3 : fdEachPackage
            ((f, (sb.1.count, stmtCoveredVal sb.1 sb.2)) :: eachFileEntries t) =
          (pathpkg f, (sb.1.count, stmtCoveredVal sb.1 sb.2)) ::
            fdEachPackage (eachFileEntries t) := by
        simp [fdEachPackage]
      rw [e1, e2, e3, hpp, ht]

/-- C2: for every statement snapshot whose keys are well formed (every
`filepos` has a `:` and a `/` before it — "all valid path shapes"), the
Package view built from the File-level rollup equals (as a Go map) the
Package view built directly from the statements, and likewise for the Root
and Module views. -/
theorem c2_rollup_associativity (sd : List (GoStmt × Bool))
    (h : ∀ sb ∈ sd, (stmtPkgP sb.1.filepos).isSome) (p : GoStr) :
    alookup p (ByPackage (ByFiles (eachFileEntries sd))) =
      alookup p (ByPackage (eachFileEntries sd)) ∧
    alookup p (ByRoot (fdEachPackage (ByFiles (eachFileEntries sd)))) =
      alookup p (ByRoot (eachPkgEntries sd)) ∧
    alookup p (ByModule (fdEachPackage (ByFiles (eachFileEntries sd)))) =
      alookup p (ByModule (eachPkgEntries sd)) := by
  refine ⟨?_, ?_, ?_⟩
  · rw [ByPackage, ByFiles, alookup_build_build]
    simp only [Option.some_bind]
    rfl
  · rw [ByRoot, ByFiles, fdEachPackage, build_map_fst, alookup_build_build]
    simp only [Option.some_bind]
    rw [eachPkgEntries_eq_fdEachPackage sd h, ByRoot, fdEachPackage,
      build_map_fst]
  · rw [ByModule, ByFiles, fdEachPackage, build_map_fst, alookup_build_build]
    simp only [Option.some_bind]
    rw [eachPkgEntries_eq_fdEachPackage sd h, ByModule, fdEachPackage,
      build_map_fst]

/-- C2 witness: the associativity theorem applied to a concrete well-formed
two-statement snapshot, evaluated at the package each statement maps to. -/
theorem c2_rollup_associativity_witness :
    (∀ sb ∈ [((⟨gs "a/b/c.go:1.2,3.4", 2⟩ : GoStmt), true),
             ((⟨gs "a/b/d.go:5.6,7.8", 3⟩ : GoStmt), false)],
      (stmtPkgP sb.1.filepos).isSome) ∧
    (alookup (gs "a/b")
        (ByPackage (ByFiles (eachFileEntries
          [((⟨gs "a/b/c.go:1.2,3.4", 2⟩ : GoStmt), true),
           ((⟨gs "a/b/d.go:5.6,7.8", 3⟩ : GoStmt), false)]))) =
      alookup (gs "a/b")
        (ByPackage (eachFileEntries
          [((⟨gs "a/b/c.go:1.2,3.4", 2⟩ : GoStmt), true),
           ((⟨gs "a/b/d.go:5.6,7.8", 3⟩ : GoStmt), false)]))) :=
  ⟨by decide,
    (c2_rollup_associativity _ (by decide) (gs "a/b")).1⟩

/-! ## Claim C3 — Diff

`Diff` receives two `EachPather`s. A concrete view is modelled by its
grouping tag and the entries its native `EachPath` enumerates (the contract:
exactly once per tracked path — not needed by the proofs below). The ranking
`oldN`/`newN` follows the `groupings` slice of cov.go
(`File`=2, `Package`=3, `Root`=4, `Module`=5); the strictly finer side is
re-aggregated with `as` (dispatching to `ByPackage`/`ByRoot`/`ByModule` via
the concrete view's `EachFile`/`EachPackage` capability), then the old side
is folded into the delta map setting the Base fields and the new side
setting the Head fields. -/

/-- The groupings of concrete views, finest to coarsest. -/
inductive Grp | file | package | root | module
deriving DecidableEq

/-- The index of a grouping in the `groupings` slice of `Diff`. -/
def grpIdx : Grp → Nat
  | .file => 2
  | .package => 3
  | .root => 4
  | .module => 5

/-- A concrete view: its native grouping and its native `EachPath` entries. -/
structure View where
  grouping : Grp
  entries : List (GoStr × Pair)

/-- The entries a view's `EachPackage` enumerates: `FileData.EachPackage`
derives each path with `pathpkg`; `PathData.EachPackage` (package, root and
module views) enumerates the stored paths unchanged. -/
def viewEachPackage (v : View) : List (GoStr × Pair) :=
  match v.grouping with
  | .file => fdEachPackage v.entries
  | _ => v.entries

/-- The `as` helper of `Diff`: re-aggregate a (strictly finer) view to the
grouping `g`. `Diff` never calls it with `g = File` (the Go code would
panic), so that case returns the empty map. -/
def asGrp (g : Grp) (v : View) : List (GoStr × Pair) :=
  match g with
  | .file => []
  | .package => ByPackage v.entries
  | .root => ByRoot (viewEachPackage v)
  | .module => ByModule (viewEachPackage v)

/-- The four-int delta record of cov.go. -/
structure StmtDelta where
  BaseCount : Int
  BaseCovered : Int
  HeadCount : Int
  HeadCovered : Int
deriving DecidableEq

/-- The zero value a Go `map[string]StmtDelta` read returns for a new key. -/
def zeroDelta : StmtDelta := ⟨0, 0, 0, 0⟩

/-- The old-side loop body of `Diff`: `cc.BaseCount = count;
cc.BaseCovered += covered`. -/
def setBase (v : Pair) (d : StmtDelta) : StmtDelta :=
  { d with BaseCount := v.1, BaseCovered := d.BaseCovered + v.2 }

/-- The new-side loop body of `Diff`: `cc.HeadCount = count;
cc.HeadCovered += covered`. -/
def setHead (v : Pair) (d : StmtDelta) : StmtDelta :=
  { d with HeadCount := v.1, HeadCovered := d.HeadCovered + v.2 }

/-- `delta[path] = f(delta[path])` on the association-list model of the Go
delta map: update the entry in place, or append `f zeroDelta`. -/
def dupd (m : List (GoStr × StmtDelta)) (k : GoStr) (f : StmtDelta → StmtDelta) :
    List (GoStr × StmtDelta) :=
  match m with
  | [] => [(k, f zeroDelta)]
  | (k', d) :: t => if k' = k then (k', f d) :: t else (k', d) :: dupd t k f

/-- Lookup in the delta map. -/
def dlookup (p : GoStr) : List (GoStr × StmtDelta) → Option StmtDelta
  | [] => none
  | (k, d) :: t => if k = p then some d else dlookup p t

/-- The granularity-matching step of `Diff`: the effective old entries, new
entries, and comparison grouping. The strictly finer side is re-aggregated
to the coarser side's grouping; with equal groupings both native entry sets
are used unchanged. -/
def diffSides (old new : View) : (List (GoStr × Pair)) × (List (GoStr × Pair)) × Grp :=
  if grpIdx old.grouping < grpIdx new.grouping then
    (asGrp new.grouping old, new.entries, new.grouping)
  else if grpIdx new.grouping < grpIdx old.grouping then
    (old.entries, asGrp old.grouping new, old.grouping)
  else
    (old.entries, new.entries, old.grouping)

/-- `Diff` from cov.go: fold the (re-aggregated) old side into the delta map
setting Base fields, then the new side setting Head fields. The returned
grouping is the one of the `XxxDelta` wrapper `Diff` selects by the first
letter of the comparison grouping. -/
def Diff (old new : View) : Grp × List (GoStr × StmtDelta) :=
  let s := diffSides old new
  (s.2.2,
    s.2.1.foldl (fun m e => dupd m e.1 (setHead e.2))
      (s.1.foldl (fun m e => dupd m e.1 (setBase e.2)) []))

theorem dlookup_dupd_self (m : List (GoStr × StmtDelta)) (k : GoStr)
    (f : StmtDelta → StmtDelta) :
    dlookup k (dupd m k f) = some (f ((dlookup k m).getD zeroDelta)) := by
  induction m with
  | nil => simp [dupd, dlookup]
  | cons e t ih =>
    obtain ⟨k', d⟩ := e
    by_cases h : k' = k
    · subst h
      simp [dupd, dlookup]
    · simp [dupd, h, dlookup, ih]

theorem dlookup_dupd_ne (m : List (GoStr × StmtDelta)) (k p : GoStr)
    (f : StmtDelta → StmtDelta) (h : p ≠ k) :
    dlookup p (dupd m k f) = dlookup p m := by
  induction m with
  | nil => simp [dupd, dlookup, if_neg (Ne.symm h)]
  | cons e t ih =>
    obtain ⟨k', d⟩ := e
    by_cases hk : k' = k
    · subst hk
      simp [dupd, dlookup, if_neg (Ne.symm h)]
    · by_cases hp : k' = p <;> simp [dupd, hk, dlookup, hp, ih, h]

/-- A fold of `dupd` steps leaves keys outside the folded entries untouched. -/
theorem dlookup_fold_not_mem (g : Pair → StmtDelta → StmtDelta)
    (E : List (GoStr × Pair)) (m : List (GoStr × StmtDelta)) (p : GoStr)
    (h : p ∉ E.map Prod.fst) :
    dlookup p (E.foldl (fun m e => dupd m e.1 (g e.2)) m) = dlookup p m := by
  induction E generalizing m with
  | nil => simp
  | cons e t ih =>
    simp only [List.map_cons, List.mem_cons] at h
    push_neg at h
    simp only [List.foldl_cons]
    rw [ih _ h.2, dlookup_dupd_ne _ _ _ _ h.1]

/-- Membership in a fold of `dupd` steps: the keys are those of the initial
map plus those of the folded entries. -/
theorem dlookup_fold_isSome (g : Pair → StmtDelta → StmtDelta)
    (E : List (GoStr × Pair)) (m : List (GoStr × StmtDelta)) (p : GoStr) :
    (dlookup p (E.foldl (fun m e => dupd m e.1 (g e.2)) m)).isSome ↔
      (dlookup p m).isSome ∨ p ∈ E.map Prod.fst := by
  induction E generalizing m with
  | nil => simp
  | cons e t ih =>
    simp only [List.foldl_cons, List.map_cons, List.mem_cons]
    rw [ih]
    by_cases hp : p = e.1
    · subst hp
      rw [dlookup_dupd_self]
      simp
    · rw [dlookup_dupd_ne _ _ _ _ hp]
      constructor
      · rintro (h | h)
        · exact Or.inl h
        · exact Or.inr (Or.inr h)
      · rintro (h | h | h)
        · exact Or.inl h
        · exact absurd h hp
        · exact Or.inr h

/-- Every value in the base-side fold has zero Head fields (starting from the
empty map, `setBase` never touches them). -/
theorem base_fold_head_zero (E : List (GoStr × Pair))
    (m : List (GoStr × StmtDelta)) (p : GoStr) (d : StmtDelta)
    (hm : ∀ q d', dlookup q m = some d' → d'.HeadCount = 0 ∧ d'.HeadCovered = 0)
    (h : dlookup p (E.foldl (fun m e => dupd m e.1 (setBase e.2)) m) = some d) :
    d.HeadCount = 0 ∧ d.HeadCovered = 0 := by
  induction E generalizing m with
  | nil => exact hm p d h
  | cons e t ih =>
    simp only [List.foldl_cons] at h
    refine ih _ ?_ h
    intro q d' hq
    by_cases hk : q = e.1
    · rw [hk, dlookup_dupd_self] at hq
      have hd' : d' = setBase e.2 ((dlookup e.1 m).getD zeroDelta) :=
        (Option.some_inj.mp hq).symm
      have hx : ((dlookup e.1 m).getD zeroDelta).HeadCount = 0 ∧
          ((dlookup e.1 m).getD zeroDelta).HeadCovered = 0 := by
        rcases hdq : dlookup e.1 m with _ | d0
        · simp [zeroDelta]
        · simpa using hm e.1 d0 hdq
      rw [hd']
      simpa [setBase] using hx
    · rw [dlookup_dupd_ne _ _ _ _ hk] at hq
      exact hm q d' hq

/-- The head-side fold preserves "absent, or present with zero Base fields";
and after it, every folded key is present. -/
theorem head_fold_base_zero (E : List (GoStr × Pair))
    (m : List (GoStr × StmtDelta)) (p : GoStr)
    (hm : dlookup p m = none ∨
      ∃ d, dlookup p m = some d ∧ d.BaseCount = 0 ∧ d.BaseCovered = 0) :
    dlookup p (E.foldl (fun m e => dupd m e.1 (setHead e.2)) m) = none ∨
      ∃ d, dlookup p (E.foldl (fun m e => dupd m e.1 (setHead e.2)) m) = some d ∧
        d.BaseCount = 0 ∧ d.BaseCovered = 0 := by
  induction E generalizing m with
  | nil => simpa using hm
  | cons e t ih =>
    simp only [List.foldl_cons]
    refine ih _ ?_
    by_cases hk : p = e.1
    · subst hk
      rw [dlookup_dupd_self]
      rcases hm with hnone | ⟨d, hd, hb1, hb2⟩
      · rw [hnone]
        exact Or.inr ⟨_, rfl, by simp [setHead, zeroDelta]⟩
      · rw [hd]
        exact Or.inr ⟨_, rfl, by simp [setHead, hb1, hb2]⟩
    · rw [dlookup_dupd_ne _ _ _ _ hk]
      exact hm

/-- C3: `Diff` keys its result at the coarser of the two views' groupings
(the strictly finer side re-aggregated by `as`, equal groupings used as is);
the delta map's key set is the union of the two (re-aggregated) sides' key
sets; a key present only on the old side has zero Head counts, and a key
present only on the new side has zero Base counts. -/
theorem c3_diff_coarser_union_zero_fill (old new : View) (p : GoStr) :
    (grpIdx (Diff old new).1 =
      max (grpIdx old.grouping) (grpIdx new.grouping)) ∧
    ((dlookup p (Diff old new).2).isSome ↔
      p ∈ (diffSides old new).1.map Prod.fst ∨
      p ∈ (diffSides old new).2.1.map Prod.fst) ∧
    (p ∈ (diffSides old new).1.map Prod.fst →
      p ∉ (diffSides old new).2.1.map Prod.fst →
      ∃ d, dlookup p (Diff old new).2 = some d ∧
        d.HeadCount = 0 ∧ d.HeadCovered = 0) ∧
    (p ∉ (diffSides old new).1.map Prod.fst →
      p ∈ (diffSides old new).2.1.map Prod.fst →
      ∃ d, dlookup p (Diff old new).2 = some d ∧
        d.BaseCount = 0 ∧ d.BaseCovered = 0) := by
  have hD1 : (Diff old new).1 = (diffSides old new).2.2 := rfl
  have hD2 : (Diff old new).2 =
      (diffSides old new).2.1.foldl (fun m e => dupd m e.1 (setHead e.2))
        ((diffSides old new).1.foldl (fun m e => dupd m e.1 (setBase e.2)) []) :=
    rfl
  refine ⟨?_, ?_, ?_, ?_⟩
  · rw [hD1, diffSides]
    by_cases h1 : grpIdx old.grouping < grpIdx new.grouping
    · rw [if_pos h1]
      show grpIdx new.grouping = _
      omega
    · rw [if_neg h1]
      by_cases h2 : grpIdx new.grouping < grpIdx old.grouping
      · rw [if_pos h2]
        show grpIdx old.grouping = _
        omega
      · rw [if_neg h2]
        show grpIdx old.grouping = _
        omega
  · rw [hD2, dlookup_fold_isSome, dlookup_fold_isSome]
    simp [dlookup, or_comm]
  · intro hold hnew
    rw [hD2]
    rw [dlookup_fold_not_mem _ _ _ _ hnew]
    have hsome : (dlookup p
        ((diffSides old new).1.foldl (fun m e => dupd m e.1 (setBase e.2)) [])).isSome := by
      rw [dlookup_fold_isSome]
      exact Or.inr hold
    rcases hd : dlookup p
        ((diffSides old new).1.foldl (fun m e => dupd m e.1 (setBase e.2)) []) with _ | d
    · rw [hd] at hsome
      simp at hsome
    · have hz := base_fold_head_zero _ [] p d (by intro q d' hq; simp [dlookup] at hq) hd
      exact ⟨d, hd, hz⟩
  · intro hold hnew
    rw [hD2]
    have h0 : dlookup p
        ((diffSides old new).1.foldl (fun m e => dupd m e.1 (setBase e.2)) []) = none := by
      rw [dlookup_fold_not_mem _ _ _ _ hold]
      simp [dlookup]
    have hb := head_fold_base_zero (diffSides old new).2.1 _ p (Or.inl h0)
    rcases hb with hnone | ⟨d, hd, hz1, hz2⟩
    · have hsome : (dlookup p
          ((diffSides old new).2.1.foldl (fun m e => dupd m e.1 (setHead e.2))
            ((diffSides old new).1.foldl (fun m e => dupd m e.1 (setBase e.2)) []))).isSome := by
        rw [dlookup_fold_isSome]
        rw [h0]
        simp [hnew]
      rw [hnone] at hsome
      simp at hsome
    · exact ⟨d, hd, hz1, hz2⟩

/-- C3 witness: a File-granularity old view against a Package-granularity new
view; the result is keyed by Package, the old side re-aggregated; the path
present only on the new side gets zero Base counts, and the one present only
on the (re-aggregated) old side gets zero Head counts. -/
theorem c3_diff_witness :
    ((gs "a") ∈ (diffSides ⟨Grp.file, [(gs "a/b.go", ((2 : Int), (1 : Int)))]⟩
        ⟨Grp.package, [(gs "c", ((5 : Int), (0 : Int)))]⟩).1.map Prod.fst ∧
      (gs "a") ∉ (diffSides ⟨Grp.file, [(gs "a/b.go", ((2 : Int), (1 : Int)))]⟩
        ⟨Grp.package, [(gs "c", ((5 : Int), (0 : Int)))]⟩).2.1.map Prod.fst) ∧
    ∃ d, dlookup (gs "a")
        (Diff ⟨Grp.file, [(gs "a/b.go", ((2 : Int), (1 : Int)))]⟩
          ⟨Grp.package, [(gs "c", ((5 : Int), (0 : Int)))]⟩).2 = some d ∧
      d.HeadCount = 0 ∧ d.HeadCovered = 0 :=
  ⟨⟨by decide, by decide⟩,
    (c3_diff_coarser_union_zero_fill
      ⟨Grp.file, [(gs "a/b.go", ((2 : Int), (1 : Int)))]⟩
      ⟨Grp.package, [(gs "c", ((5 : Int), (0 : Int)))]⟩ (gs "a")).2.2.1
      (by decide) (by decide)⟩

/-! ## Report rendering (report.go)

Percentages are Go float64s; here they are exact rationals, with `Option ℚ`
distinguishing a finite value (`some`) from the non-finite result of a
division by zero (`none`; for the rows in question the numerator is also 0,
so the Go value is `NaN`). -/

/-- The `Counts` struct of report.go. -/
structure Counts where
  Total : Int
  Covered : Int
  IsAggregate : Bool
deriving DecidableEq

/-- `Percent` from cov.go: sums all `(count, covered)` callbacks of
`EachPath`, returns `0.0` for a zero total (guarded), else
`float64(totalcov*100)/float64(totalct)`. -/
def Percent (E : List (GoStr × Pair)) : ℚ :=
  let totalct := (E.map (fun e => e.2.1)).sum
  let totalcov := (E.map (fun e => e.2.2)).sum
  if totalct = 0 then 0 else (totalcov * 100 : ℚ) / (totalct : ℚ)

/-- The guarded per-row percentage of `ReportTo` (plain text): `pctHead` /
`pctBase` stay `0.0` unless the row's Total is nonzero. -/
def pctOf (c : Counts) : ℚ :=
  if c.Total ≠ 0 then (100 * c.Covered : ℚ) / (c.Total : ℚ) else 0

/-- Go float division with an `int` numerator and denominator: `none` for a
zero denominator (the Go result is non-finite: `NaN` when the numerator is
also 0). -/
def fdiv (a b : Int) : Option ℚ :=
  if b = 0 then none else some ((a : ℚ) / (b : ℚ))

/-- The shape of a plain-text report row: with the `(was …)` parenthetical
(first `Fprintf`), with only the signed delta (second), or plain (third). -/
inductive RowShape
  | withWas
  | deltaOnly
  | plain
deriving DecidableEq

/-- The branch structure of the row loop of `ReportTo`: the parenthetical
branch is taken when `pctBase > 0`, the delta-only branch when the view is a
`ChangeDetailer` (`d != nil`), else the plain branch. -/
def reportRowShape (isDiff : Bool) (bd : Counts) : RowShape :=
  if pctOf bd > 0 then .withWas else if isDiff then .deltaOnly else .plain

/-! ### Markdown report (`ReportMDTo`) -/

/-- One Markdown table cell, keeping the numeric content symbolic. -/
inductive MdCell
  | name (s : GoStr)
  | pct (v : Option ℚ)
  | frac (covered total : Int)
  | change (v : ℚ)
  | pctParen (v : ℚ)
  | fracParen (covered total : Int)
deriving DecidableEq

/-- One Markdown data row of `ReportMDTo`: six cells (with the guarded head
percentage) when the row's base Total is positive, otherwise three cells
whose Coverage percentage is the UNGUARDED division
`float64(100*hd.Covered)/float64(hd.Total)`. -/
def mdRow (pkg : GoStr) (bd hd : Counts) : List MdCell :=
  if bd.Total > 0 then
    [MdCell.name pkg,
     MdCell.pct (some (if hd.Total > 0 then
       (100 * hd.Covered : ℚ) / (hd.Total : ℚ) else 0)),
     MdCell.frac hd.Covered hd.Total,
     MdCell.change ((if hd.Total > 0 then
       (100 * hd.Covered : ℚ) / (hd.Total : ℚ) else 0) -
       (100 * bd.Covered : ℚ) / (bd.Total : ℚ)),
     MdCell.pctParen ((100 * bd.Covered : ℚ) / (bd.Total : ℚ)),
     MdCell.fracParen bd.Covered bd.Total]
  else
    [MdCell.name pkg,
     MdCell.pct (fdiv (100 * hd.Covered) hd.Total),
     MdCell.frac hd.Covered hd.Total]

/-- A `PathDetailer`, optionally a `ChangeDetailer` (`hasBase` is
`d, _ := c.(ChangeDetailer); d != nil`): sorted paths, per-path head counts,
per-path base counts, and the grouping label. -/
structure MdView where
  paths : List GoStr
  detail : GoStr → Counts
  hasBase : Bool
  baseDetail : GoStr → Counts
  groupingLabel : GoStr

/-- The base counts used for a row: zero when the view is not a
`ChangeDetailer` (Go leaves `bd` at its zero value). -/
def bdOf (v : MdView) (p : GoStr) : Counts :=
  if v.hasBase then v.baseDetail p else ⟨0, 0, false⟩

/-- `btot.Covered += bd.Covered; btot.Total += bd.Total` summed over the
first measuring loop. The loop runs over `pkgs` skipping the appended `"*"`
entry (`i == 0 || i+1 != len(pkgs)`), which is exactly `c.Paths()`. -/
def btotOf (v : MdView) : Counts :=
  v.paths.foldl (fun acc p =>
    ⟨acc.Total + (bdOf v p).Total, acc.Covered + (bdOf v p).Covered,
      acc.IsAggregate⟩) ⟨0, 0, false⟩

/-- The head-side totals accumulated by the same loop. -/
def htotOf (v : MdView) : Counts :=
  v.paths.foldl (fun acc p =>
    ⟨acc.Total + (v.detail p).Total, acc.Covered + (v.detail p).Covered,
      acc.IsAggregate⟩) ⟨0, 0, false⟩

/-- The rendered list of row labels: `pkgs`, plus `"*"` when more than one. -/
def mdPkgs (v : MdView) : List GoStr :=
  if v.paths.length > 1 then v.paths ++ [gs "*"] else v.paths

/-- The row name: the path with `"/..."` appended for aggregate rows. -/
def mdName (v : MdView) (p : GoStr) : GoStr :=
  if (v.detail p).IsAggregate then p ++ gs "/..." else p

/-- The Markdown header columns: the three change columns are present iff
any base data exists anywhere in the report (`btot.Total > 0`). -/
def mdHeader (v : MdView) : List GoStr :=
  if (btotOf v).Total > 0 then
    [v.groupingLabel, gs "Coverage", gs "Statements", gs "Change",
     gs "(Covered)", gs "(Statements)"]
  else
    [v.groupingLabel, gs "Coverage", gs "Statements"]

/-- The Markdown data rows: one per entry of `mdPkgs`; the entry that is
last-but-not-first (the appended `"*"`) becomes the bold Total row. -/
def mdRows (v : MdView) : List (List MdCell) :=
  (mdPkgs v).enum.map (fun ip =>
    if ip.1 = 0 ∨ ip.1 + 1 ≠ (mdPkgs v).length then
      mdRow (mdName v ip.2) (bdOf v ip.2) (v.detail ip.2)
    else
      mdRow (gs "**Total**") (btotOf v) (htotOf v))

/-! ## Claim C4 — percentage zero-total safety -/

/-- C4: the overall `Percent` helper and the plain-text row percentages are
guarded and yield `0.0` on a zero total, but the Markdown no-base row branch
divides by `hd.Total` without a guard, so a zero-total row renders a
non-finite `0/0` percentage (`none`, Go `NaN`) instead of the `0.0` the
claim requires. -/
theorem c4_markdown_zero_total_nan :
    Percent [(gs "pkg", ((0 : Int), (0 : Int)))] = 0 ∧
    pctOf ⟨0, 0, false⟩ = 0 ∧
    mdRow (gs "pkg") ⟨0, 0, false⟩ ⟨0, 0, false⟩ =
      [MdCell.name (gs "pkg"), MdCell.pct none, MdCell.frac 0 0] := by
  refine ⟨?_, ?_, ?_⟩
  · simp [Percent]
  · simp [pctOf]
  · simp [mdRow, fdiv]

/-! ## Claim C8 — the plain-text "(was …)" parenthetical -/

/-- C8, counterexample: the claim says the parenthetical appears iff the
row's base Total is positive; but a diff row with base Total 10 and base
Covered 0 has `pctBase = 0`, so the code takes the delta-only branch even
though its base Total is positive. -/
theorem c8_counterexample :
    reportRowShape true ⟨10, 0, false⟩ = RowShape.deltaOnly ∧
    RowShape.deltaOnly ≠ RowShape.withWas ∧
    ((10 : Int) > 0) := by
  have hp : pctOf ⟨10, 0, false⟩ = 0 := by
    simp [pctOf]
  refine ⟨?_, by decide, by decide⟩
  rw [reportRowShape, hp]
  simp

/-- C8, amended: every diff row gets a signed delta (its shape is never
plain), and the `(was …)` parenthetical appears iff the computed base
percentage is positive — for real counts (`0 ≤ Covered ≤ Total`) iff the
base Covered is positive, not iff the base Total is. -/
theorem c8_was_iff_base_covered_pos (bd : Counts)
    (h1 : 0 ≤ bd.Covered) (h2 : bd.Covered ≤ bd.Total) :
    reportRowShape true bd ≠ RowShape.plain ∧
    (reportRowShape true bd = RowShape.withWas ↔ 0 < bd.Covered) := by
  have hiff : pctOf bd > 0 ↔ 0 < bd.Covered := by
    rw [pctOf]
    constructor
    · intro hgt
      by_contra hc
      push_neg at hc
      have hc0 : bd.Covered = 0 := le_antisymm hc h1
      rw [hc0] at hgt
      by_cases ht : bd.Total ≠ 0 <;> simp [ht] at hgt
    · intro hpos
      have htpos : 0 < bd.Total := lt_of_lt_of_le hpos h2
      rw [if_pos (by omega)]
      apply div_pos
      · have hq : (0 : ℚ) < (bd.Covered : ℚ) := by exact_mod_cast hpos
        nlinarith
      · exact_mod_cast htpos
  constructor
  · rw [reportRowShape]
    by_cases hp : pctOf bd > 0 <;> simp [hp]
  · rw [reportRowShape]
    by_cases hp : pctOf bd > 0
    · simp only [if_pos hp]
      simp [hiff.mp hp]
    · simp only [if_neg hp, if_pos rfl]
      constructor
      · intro h
        exact absurd h (by simp)
      · intro hc
        exact absurd (hiff.mpr hc) hp

/-- C8 witness: a diff row with base counts 7 of 9 shows the parenthetical. -/
theorem c8_witness :
    ((0 : Int) ≤ 7 ∧ (7 : Int) ≤ 9) ∧
    (reportRowShape true ⟨9, 7, false⟩ ≠ RowShape.plain ∧
      (reportRowShape true ⟨9, 7, false⟩ = RowShape.withWas ↔ (0 : Int) < 7)) :=
  ⟨⟨by decide, by decide⟩,
    c8_was_iff_base_covered_pos ⟨9, 7, false⟩ (by decide) (by decide)⟩

/-! ## Claim C10 — short Markdown rows under a six-column header -/

theorem map_enumFrom_if (A : GoStr → List MdCell) (B : List MdCell) (L : Nat) :
    ∀ (l : List GoStr) (s : Nat), s + l.length < L →
      (List.enumFrom s l).map (fun ip =>
          if ip.1 = 0 ∨ ip.1 + 1 ≠ L then A ip.2 else B) = l.map A := by
  intro l
  induction l with
  | nil => simp
  | cons p t ih =>
    intro s hs
    simp only [List.enumFrom_cons, List.map_cons]
    rw [if_pos, ih (s + 1) (by simpa [Nat.add_comm, Nat.add_left_comm] using hs)]
    right
    simp only [List.length_cons] at hs
    omega

/-- The rows of `ReportMDTo`: one normal row per path of the view (in
order), then — iff there is more than one path — the `**Total**` row for the
appended `"*"` entry. -/
theorem mdRows_eq (v : MdView) :
    mdRows v =
      v.paths.map (fun p => mdRow (mdName v p) (bdOf v p) (v.detail p)) ++
      (if v.paths.length > 1 then
        [mdRow (gs "**Total**") (btotOf v) (htotOf v)] else []) := by
  rw [mdRows, mdPkgs]
  by_cases hgt : v.paths.length > 1
  · rw [if_pos hgt, if_pos hgt, List.enum_append, List.map_append]
    congr 1
    · rw [List.enum_eq_enumFrom]
      exact map_enumFrom_if
        (fun p => mdRow (mdName v p) (bdOf v p) (v.detail p))
        (mdRow (gs "**Total**") (btotOf v) (htotOf v))
        ((v.paths ++ [gs "*"]).length) v.paths 0 (by simp)
    · simp only [List.enumFrom_cons, List.enumFrom_nil, List.map_cons,
        List.map_nil]
      have hcond : ¬(v.paths.length = 0 ∨
          v.paths.length + 1 ≠ (v.paths ++ [gs "*"]).length) := by
        push_neg
        refine ⟨by omega, by simp⟩
      rw [if_neg hcond]
  · rw [if_neg hgt, if_neg hgt, List.append_nil]
    rcases hp : v.paths with _ | ⟨p, t⟩
    · simp
    · rcases ht : t with _ | ⟨q, t2⟩
      · simp [List.enum_cons]
      · rw [hp, ht] at hgt
        simp at hgt

/-- C10: when any row of the Markdown report has base data (so the header
carries the six columns including Change, (Covered) and (Statements)), each
emitted data row is the one `mdRows_eq` lists for its path, and every row
whose own base Total is 0 consists of only the name, Coverage and Statements
cells — the three change cells are omitted, leaving the row shorter than the
header (its Coverage cell being the unguarded head division). -/
theorem c10_md_short_row (v : MdView) (hbase : (btotOf v).Total > 0) :
    (mdHeader v).length = 6 ∧
    mdRows v =
      v.paths.map (fun p => mdRow (mdName v p) (bdOf v p) (v.detail p)) ++
      (if v.paths.length > 1 then
        [mdRow (gs "**Total**") (btotOf v) (htotOf v)] else []) ∧
    ∀ p, (bdOf v p).Total = 0 →
      mdRow (mdName v p) (bdOf v p) (v.detail p) =
        [MdCell.name (mdName v p),
         MdCell.pct (fdiv (100 * (v.detail p).Covered) (v.detail p).Total),
         MdCell.frac (v.detail p).Covered (v.detail p).Total] ∧
      (mdRow (mdName v p) (bdOf v p) (v.detail p)).length < (mdHeader v).length := by
  have hh : (mdHeader v).length = 6 := by
    rw [mdHeader, if_pos hbase]
    rfl
  refine ⟨hh, mdRows_eq v, ?_⟩
  intro p hp
  have hr : mdRow (mdName v p) (bdOf v p) (v.detail p) =
      [MdCell.name (mdName v p),
       MdCell.pct (fdiv (100 * (v.detail p).Covered) (v.detail p).Total),
       MdCell.frac (v.detail p).Covered (v.detail p).Total] := by
    rw [mdRow, if_neg (by omega)]
  refine ⟨hr, ?_⟩
  rw [hr, hh]
  simp

/-- A concrete two-path diff view: path `a` with base data 3 of 8, path `b`
with base Total 0; used to instantiate C10. -/
def mdV0 : MdView :=
  ⟨[gs "a", gs "b"],
    fun p => if p = gs "a" then ⟨10, 5, true⟩ else ⟨4, 2, true⟩,
    true,
    fun p => if p = gs "a" then ⟨8, 3, false⟩ else ⟨0, 0, false⟩,
    gs "Package"⟩

/-- C10 witness: on `mdV0` the header has 6 columns and the row for `b`
(whose base Total is 0) is shorter than the header. -/
theorem c10_md_short_row_witness :
    (btotOf mdV0).Total > 0 ∧
    ((mdHeader mdV0).length = 6 ∧
      (bdOf mdV0 (gs "b")).Total = 0 ∧
      (mdRow (mdName mdV0 (gs "b")) (bdOf mdV0 (gs "b"))
        (mdV0.detail (gs "b"))).length < (mdHeader mdV0).length) := by
  have h := c10_md_short_row mdV0 (by decide)
  exact ⟨by decide, h.1, by decide, (h.2.2 (gs "b") (by decide)).2⟩

/-! ## Profile parser (`scanStatements`) and exclusion matching -/

/-- The whitespace predicate of `strings.Fields` (`unicode.IsSpace`),
restricted to the ASCII space characters relevant for profile lines. -/
def isGoSpace (c : Char) : Bool :=
  c = ' ' || c = '\t' || c = '\n' || c = '\r'

/-- Split at every character satisfying `p` (empty segments kept). -/
def splitPred (p : Char → Bool) : List Char → List (List Char)
  | [] => [[]]
  | c :: t =>
    match splitPred p t with
    | [] => [[]]
    | seg :: rest => if p c then [] :: seg :: rest else (c :: seg) :: rest

/-- `strings.Fields`: the maximal runs of non-space characters. -/
def goFields (s : GoStr) : List GoStr :=
  (splitPred isGoSpace s).filter (fun f => f ≠ [])

/-- The numeric value of a digit run; `none` if empty or non-digit. -/
def digitsVal : List Char → Option Nat
  | [] => none
  | ds => ds.foldl (fun acc c =>
      match acc with
      | none => none
      | some n =>
        if '0' ≤ c ∧ c ≤ '9' then some (n * 10 + (c.toNat - '0'.toNat))
        else none) (some 0)

/-- `strconv.Atoi`: an optional sign followed by at least one digit. Note it
accepts NEGATIVE numbers. (The 64-bit overflow error of the real `Atoi` is
not modelled; no claim involves counts of that size.) -/
def atoi (s : GoStr) : Option Int :=
  match s with
  | '+' :: t => (digitsVal t).map (fun n => (n : Int))
  | '-' :: t => (digitsVal t).map (fun n => -(n : Int))
  | t => (digitsVal t).map (fun n => (n : Int))

/-- `strings.Contains(s, sub)`: some tail of `s` starts with `sub`. -/
def goContains (s sub : GoStr) : Bool :=
  s.tails.any (fun t => sub.isPrefixOf t)

/-- `TestOptions.excludes` from cov.go: some token `ex` satisfies
`strings.HasPrefix(path, ex+"/") || strings.Contains(path, "/"+ex+"/")`.
(A nil options receiver returns false, like the empty token list here.) -/
def excludes (exs : List GoStr) (path : GoStr) : Bool :=
  exs.any (fun ex =>
    (ex ++ ['/']).isPrefixOf path || goContains path ('/' :: ex ++ ['/']))

/-- One Go-map write `stmts[loc] = cov || stmts[loc]` (absent keys read as
`false`). -/
def supd (m : List (GoStmt × Bool)) (k : GoStmt) (cov : Bool) :
    List (GoStmt × Bool) :=
  match m with
  | [] => [(k, cov)]
  | (k', b) :: t => if k' = k then (k', cov || b) :: t else (k', b) :: supd t k cov

/-- `scanStatements` from cov.go over the scanned lines: skip `mode:` lines,
skip lines without exactly 3 fields (diagnostic only), skip excluded paths,
then parse the count — an `Atoi` failure aborts the whole load, returning an
error (the Go function returns `nil` for the map) — and OR the covered flag
into the statement map. The context-cancellation path (`ctx.Err()`) is not
modelled: the core is synchronous and the claims concern parsing. -/
def scanStatements (exs : List GoStr) :
    List GoStr → List (GoStmt × Bool) → Except GoStr (List (GoStmt × Bool))
  | [], m => .ok m
  | line :: rest, m =>
    if (gs "mode:").isPrefixOf line then scanStatements exs rest m
    else
      match goFields line with
      | [f0, f1, f2] =>
        if excludes exs f0 then scanStatements exs rest m
        else
          match atoi f1 with
          | none => .error f1
          | some ct => scanStatements exs rest (supd m ⟨f0, ct⟩ (f2 ≠ gs "0"))
      | _ => scanStatements exs rest m

/-- A line that makes `scanStatements` abort: retained (not a `mode:` line,
exactly 3 fields, not excluded) with a count field `Atoi` rejects. -/
def badLine (exs : List GoStr) (line : GoStr) : Bool :=
  if (gs "mode:").isPrefixOf line then false
  else
    match goFields line with
    | [f0, f1, _] => !excludes exs f0 && (atoi f1).isNone
    | _ => false

/-! ## Claim C7 — parser abort condition -/

/-- C7, counterexample: the claim says the load aborts exactly when a
retained line's count field fails to parse as a NON-NEGATIVE integer; but
`strconv.Atoi` accepts a sign, so the count `-5` — not a non-negative
integer — parses fine and the load succeeds, retaining the statement with a
negative count. -/
theorem c7_counterexample :
    scanStatements [] [gs "p/f.go:1.2,2.3 -5 1"] [] =
      Except.ok [((⟨gs "p/f.go:1.2,2.3", -5⟩ : GoStmt), true)] ∧
    atoi (gs "-5") = some (-5) ∧ ((-5 : Int) < 0) := by
  exact ⟨rfl, rfl, by decide⟩

/-- C7, amended: the load aborts with an error (returning no statement map)
exactly when some line is retained — not a `mode:` line, exactly three
fields, not excluded — and its count field fails to parse as a (possibly
signed) integer; negative counts are accepted. -/
theorem c7_scan_error_iff (exs : List GoStr) (lines : List GoStr)
    (m : List (GoStmt × Bool)) :
    (∃ e, scanStatements exs lines m = .error e) ↔
      lines.any (badLine exs) = true := by
  induction lines generalizing m with
  | nil =>
    simp [scanStatements]
  | cons line rest ih =>
    rw [List.any_cons]
    by_cases hm : (gs "mode:").isPrefixOf line = true
    · rw [scanStatements]
      rw [if_pos hm, ih]
      rw [badLine, if_pos hm]
      simp
    · rw [scanStatements, if_neg hm, badLine, if_neg hm]
      rcases hf : goFields line with _ | ⟨f0, _ | ⟨f1, _ | ⟨f2, _ | ⟨f3, ft⟩⟩⟩⟩
      · simpa using ih m
      · simpa using ih m
      · simpa using ih m
      · dsimp only
        by_cases hex : excludes exs f0 = true
        · rw [if_pos hex]
          simp only [hex, Bool.not_true, Bool.false_and, Bool.false_or]
          exact ih m
        · rw [if_neg hex]
          rcases ha : atoi f1 with _ | ct
          · simp only [ha, Option.isNone_none, hex, Bool.not_false,
              Bool.and_true, Bool.true_or]
            exact iff_of_true ⟨f1, rfl⟩ (by simp)
          · simp only [ha, Option.isNone_some, hex, Bool.not_false,
              Bool.and_false, Bool.false_or]
            exact ih _
      · simpa using ih m

/-! ## Claim C9 — exclusion matching -/

theorem goSplit_ne_nil (sep : Char) (s : List Char) : goSplit sep s ≠ [] := by
  cases s with
  | nil => simp [goSplit]
  | cons c t =>
    rw [goSplit]
    rcases goSplit sep t with _ | ⟨seg, rest⟩
    · simp
    · by_cases h : c = sep <;> simp [h]

theorem goSplit_no_sep (sep : Char) (a : List Char) (h : sep ∉ a) :
    goSplit sep a = [a] := by
  induction a with
  | nil => rfl
  | cons c t ih =>
    simp only [List.mem_cons] at h
    push_neg at h
    rw [goSplit, ih h.2]
    dsimp only
    rw [if_neg (Ne.symm h.1)]

/-- A separator terminates the current segment: splitting `l ++ sep :: r`
splits the two parts independently. -/
theorem goSplit_append_sep (sep : Char) (l r : List Char) :
    goSplit sep (l ++ sep :: r) = goSplit sep l ++ goSplit sep r := by
  induction l with
  | nil =>
    rw [List.nil_append, goSplit]
    rcases hr : goSplit sep r with _ | ⟨seg, rest⟩
    · exact absurd hr (goSplit_ne_nil sep r)
    · rw [goSplit, hr]
      dsimp only
      simp
  | cons c t ih =>
    rw [List.cons_append, goSplit, ih]
    rcases ht : goSplit sep t with _ | ⟨seg, rest⟩
    · exact absurd ht (goSplit_ne_nil sep t)
    · rw [goSplit, ht]
      dsimp only
      by_cases h : c = sep <;> simp [h]

theorem joinSlash_cons_ne (a : List Char) (t : List (List Char)) (h : t ≠ []) :
    joinSlash (a :: t) = a ++ '/' :: joinSlash t := by
  rcases t with _ | ⟨b, t2⟩
  · exact absurd rfl h
  · rfl

/-- `strings.Join` with `/` undoes `strings.Split` by `/`. -/
theorem joinSlash_goSplit (p : GoStr) : joinSlash (goSplit '/' p) = p := by
  induction p with
  | nil => rfl
  | cons c t ih =>
    rw [goSplit]
    rcases ht : goSplit '/' t with _ | ⟨seg, rest⟩
    · exact absurd ht (goSplit_ne_nil '/' t)
    · rw [ht] at ih
      dsimp only
      by_cases h : c = '/'
      · rw [if_pos h, joinSlash_cons_ne _ _ (by simp), ih, h]
        rfl
      · rw [if_neg h]
        rcases rest with _ | ⟨d, rest2⟩
        · have h1 : joinSlash [c :: seg] = c :: seg := rfl
          have h2 : joinSlash [seg] = seg := rfl
          rw [h2] at ih
          rw [h1, ih]
        · rw [joinSlash_cons_ne _ _ (by simp)]
          rw [joinSlash_cons_ne _ _ (by simp)] at ih
          rw [List.cons_append, ih]

theorem joinSlash_append (s X : List (List Char)) (hs : s ≠ []) (hX : X ≠ []) :
    joinSlash (s ++ X) = joinSlash s ++ '/' :: joinSlash X := by
  induction s with
  | nil => exact absurd rfl hs
  | cons a t ih =>
    rcases t with _ | ⟨b, t2⟩
    · rw [List.cons_append, List.nil_append, joinSlash_cons_ne _ _ hX]
      rfl
    · rw [List.cons_append, joinSlash_cons_ne _ _ (by simp),
        joinSlash_cons_ne _ _ (by simp), ih (by simp)]
      simp

theorem mem_dropLast_iff {α : Type} (x : α) (L : List α) :
    x ∈ L.dropLast ↔ ∃ s t, L = s ++ x :: t ∧ t ≠ [] := by
  induction L with
  | nil => simp
  | cons a t ih =>
    rcases t with _ | ⟨b, t2⟩
    · simp only [List.dropLast_single, List.not_mem_nil, false_iff]
      rintro ⟨s, t, hst, ht⟩
      have hl := congrArg List.length hst
      simp only [List.length_cons, List.length_nil, List.length_append] at hl
      have ht0 : t.length = 0 := by omega
      exact ht (List.length_eq_zero.mp ht0)
    · rw [List.dropLast_cons₂]
      simp only [List.mem_cons]
      rw [ih]
      constructor
      · rintro (rfl | ⟨s, u, hsu, hu⟩)
        · exact ⟨[], b :: t2, rfl, by simp⟩
        · exact ⟨a :: s, u, by rw [List.cons_append, hsu], hu⟩
      · rintro ⟨s, u, hsu, hu⟩
        rcases s with _ | ⟨c, s2⟩
        · rw [List.nil_append] at hsu
          exact Or.inl (List.cons_eq_cons.mp hsu).1.symm
        · rw [List.cons_append] at hsu
          have h2 := List.cons_eq_cons.mp hsu
          exact Or.inr ⟨s2, u, h2.2, hu⟩

/-- `strings.Contains` decides the sublist (infix) relation. -/
theorem goContains_iff (s sub : GoStr) :
    goContains s sub = true ↔ ∃ l r, s = l ++ sub ++ r := by
  rw [goContains, List.any_eq_true]
  constructor
  · rintro ⟨t, ht, hp⟩
    rw [List.mem_tails] at ht
    rw [List.isPrefixOf_iff_prefix] at hp
    obtain ⟨r, hr⟩ := hp
    obtain ⟨l, hl⟩ := ht
    exact ⟨l, r, by rw [← hl, ← hr, List.append_assoc]⟩
  · rintro ⟨l, r, rfl⟩
    refine ⟨sub ++ r, ?_, ?_⟩
    · rw [List.mem_tails]
      exact ⟨l, by rw [List.append_assoc]⟩
    · rw [List.isPrefixOf_iff_prefix]
      exact ⟨r, rfl⟩

/-- C9, counterexample: the claim says a path is excluded iff the token
occurs as a complete segment bounded by `/` or the string edges. The token
`gen` is the final complete segment of `a/gen` (bounded by `/` and the end
of the string), yet the code — which only matches `ex+"/"` as a prefix or
`"/"+ex+"/"` inside — does not exclude it. -/
theorem c9_counterexample :
    excludes [gs "gen"] (gs "a/gen") = false ∧
    (gs "gen") ∈ goSplit '/' (gs "a/gen") := by
  decide

/-- C9, amended: for a slash-free token, a path is excluded iff the token
occurs as a complete path segment OTHER THAN THE LAST ONE (equivalently,
one followed by a further `/`); a token matching only the final segment does
not exclude. -/
theorem c9_exclusion_amended (ex p : GoStr) (hx : '/' ∉ ex) :
    (excludes [ex] p = true ↔ ex ∈ (goSplit '/' p).dropLast) := by
  rw [excludes]
  simp only [List.any_cons, List.any_nil, Bool.or_false, Bool.or_eq_true]
  rw [mem_dropLast_iff]
  constructor
  · rintro (hpre | hinf)
    · rw [List.isPrefixOf_iff_prefix] at hpre
      obtain ⟨r, hr⟩ := hpre
      refine ⟨[], goSplit '/' r, ?_, goSplit_ne_nil '/' r⟩
      have hform : p = ex ++ '/' :: r := by
        rw [← hr]
        simp
      rw [hform, goSplit_append_sep, goSplit_no_sep '/' ex hx]
      simp
    · rw [goContains_iff] at hinf
      obtain ⟨l, r, hr⟩ := hinf
      refine ⟨goSplit '/' l, goSplit '/' r, ?_, goSplit_ne_nil '/' r⟩
      have hform : p = l ++ '/' :: (ex ++ '/' :: r) := by
        rw [hr]
        simp
      rw [hform, goSplit_append_sep, goSplit_append_sep,
        goSplit_no_sep '/' ex hx]
      simp
  · rintro ⟨s, t, hst, ht⟩
    have hp : p = joinSlash (s ++ ex :: t) := by
      rw [← hst, joinSlash_goSplit]
    rcases s with _ | ⟨a, s2⟩
    · left
      rw [List.isPrefixOf_iff_prefix]
      refine ⟨joinSlash t, ?_⟩
      rw [hp, List.nil_append, joinSlash_cons_ne _ _ ht]
      simp
    · right
      rw [goContains_iff]
      refine ⟨joinSlash (a :: s2), joinSlash t, ?_⟩
      rw [hp, joinSlash_append _ _ (by simp) (by simp),
        joinSlash_cons_ne _ _ ht]
      simp

/-- C9 witness: the token `gen` as a non-final segment of `a/gen/b.go` is
excluded, matching the segment characterisation. -/
theorem c9_exclusion_amended_witness :
    ('/' ∉ gs "gen") ∧
    (excludes [gs "gen"] (gs "a/gen/b.go") = true ↔
      gs "gen" ∈ (goSplit '/' (gs "a/gen/b.go")).dropLast) :=
  ⟨by decide, c9_exclusion_amended (gs "gen") (gs "a/gen/b.go") (by decide)⟩

end Coverpkg
